import Mathlib

/-!
Verification of the ICF consent report generator (`ICF-check.py`).

The development shallowly embeds the core reconciliation logic of the
program: the tied-latest catalog lookup `find_all_icf_versions`, the
per-participant report generation `generate_report`, and the run-merging
pass applied to the emitted rows.  Dates are modelled as (year, month,
day) triples ordered lexicographically, which agrees with chronological
order of the timestamps the program manipulates; a `pandas` missing
date (`NaT`) is modelled as `Option.none`, and every comparison against
a missing date is `false`, as in `pandas`.
-/

set_option maxHeartbeats 1000000
set_option linter.unreachableTactic false
set_option linter.unusedTactic false

namespace ICFCheck

/-- A calendar date.  Lexicographic comparison of the three components
coincides with chronological order for the dates handled by the program. -/
structure Date where
  year : Nat
  month : Nat
  day : Nat
  deriving DecidableEq, Repr

/-- Lexicographic (chronological) order on dates, as a boolean. -/
def Date.leB (a b : Date) : Bool :=
  if a.year ≠ b.year then decide (a.year < b.year)
  else if a.month ≠ b.month then decide (a.month < b.month)
  else decide (a.day ≤ b.day)

/-- Strict chronological order on dates. -/
def Date.ltB (a b : Date) : Bool :=
  !(Date.leB b a)

theorem Date.leB_iff (a b : Date) : Date.leB a b = true ↔
    (a.year < b.year ∨ (a.year = b.year ∧
      (a.month < b.month ∨ (a.month = b.month ∧ a.day ≤ b.day)))) := by
  unfold Date.leB
  by_cases h1 : a.year = b.year <;> by_cases h2 : a.month = b.month <;>
    simp [h1, h2] <;> omega

theorem Date.leB_refl (a : Date) : Date.leB a a = true := by
  rw [Date.leB_iff]; omega

theorem Date.leB_total (a b : Date) : Date.leB a b = true ∨ Date.leB b a = true := by
  rw [Date.leB_iff, Date.leB_iff]; omega

theorem Date.leB_trans {a b c : Date} (hab : Date.leB a b = true)
    (hbc : Date.leB b c = true) : Date.leB a c = true := by
  rw [Date.leB_iff] at *; omega

theorem Date.leB_antisymm {a b : Date} (hab : Date.leB a b = true)
    (hba : Date.leB b a = true) : a = b := by
  rw [Date.leB_iff] at hab hba
  cases a with
  | mk ya ma da =>
    cases b with
    | mk yb mb db =>
      simp only [Date.mk.injEq]
      simp only at hab hba
      omega

theorem Date.ltB_iff_not_leB (a b : Date) :
    Date.ltB a b = true ↔ ¬ Date.leB b a = true := by
  simp [Date.ltB]

/-- One row of the version catalog: a version name and its
effective-from date (`none` models an unparseable date, `NaT`). -/
structure IcfRow where
  name : String
  validFrom : Option Date
  deriving DecidableEq, Repr

/-- One row of the consent table: participant id, signature date, and
the two randomization-group values (`none` models a missing value). -/
structure ConsentRow where
  mnpaid : String
  icdat : Option Date
  rando1 : Option String
  rando2 : Option String
  deriving DecidableEq, Repr

/-- The consent table together with flags recording whether the two
randomization-group columns are present at all (in the program, a
missing column makes `Series.get` fall back to the default `"-"`). -/
structure ConsentsTable where
  rows : List ConsentRow
  hasRando1 : Bool
  hasRando2 : Bool

/-- One row of the EOS table: exit date and death date, both optional. -/
structure EosRow where
  mnpaid : String
  eosdat : Option Date
  dthdat : Option Date

/-- One row of the eligibility table.  `eligyn = none` models a record
whose eligibility cell is empty (`NaN` after the string-typed load). -/
structure EligRow where
  mnpaid : String
  eligyn : Option String

/-- One emitted report row. -/
structure ReportRow where
  pid : String
  version : String
  date : String
  comment : String
  deriving DecidableEq, Repr

/-- `pandas`-style `<=` on possibly missing dates: any comparison
involving `NaT` is `false`. -/
def pdLe (a b : Option Date) : Bool :=
  match a, b with
  | some x, some y => Date.leB x y
  | _, _ => false

/-- `pandas`-style `>` on possibly missing dates. -/
def pdGt (a b : Option Date) : Bool :=
  match a, b with
  | some x, some y => Date.ltB y x
  | _, _ => false

/-- `pandas`-style `>=` on possibly missing dates. -/
def pdGe (a b : Option Date) : Bool :=
  match a, b with
  | some x, some y => Date.leB y x
  | _, _ => false

/-- Combine one possibly missing date into a running maximum. -/
def maxComb (d acc : Option Date) : Option Date :=
  match d, acc with
  | none, m => m
  | some v, none => some v
  | some v, some m => some (if Date.leB v m then m else v)

/-- Maximum of a list of possibly missing dates, skipping the missing
ones, `none` if no date is present: the semantics of `Series.max()`
with its default `skipna=True`. -/
def maxDate (l : List (Option Date)) : Option Date :=
  l.foldr maxComb none

theorem maxDate_nil : maxDate [] = none := rfl

theorem maxDate_cons (a : Option Date) (l : List (Option Date)) :
    maxDate (a :: l) = maxComb a (maxDate l) := rfl

theorem maxDate_none {l : List (Option Date)} (h : maxDate l = none) :
    ∀ d ∈ l, d = none := by
  induction l with
  | nil => intro d hd; cases hd
  | cons a rest ih =>
    intro d hd
    rw [maxDate_cons] at h
    rcases List.mem_cons.mp hd with hd | hd
    · subst hd
      cases hd2 : d with
      | none => rfl
      | some v =>
        rw [hd2] at h
        cases hm : maxDate rest <;> rw [hm] at h <;> simp [maxComb] at h
    · cases ha : a with
      | none =>
        rw [ha] at h
        simp only [maxComb] at h
        exact ih h d hd
      | some v =>
        rw [ha] at h
        cases hm : maxDate rest <;> rw [hm] at h <;> simp [maxComb] at h

theorem maxDate_attained {l : List (Option Date)} {m : Date}
    (h : maxDate l = some m) : some m ∈ l := by
  induction l with
  | nil => simp [maxDate] at h
  | cons a rest ih =>
    rw [maxDate_cons] at h
    cases ha : a with
    | none =>
      rw [ha] at h
      simp only [maxComb] at h
      exact List.mem_cons_of_mem _ (ih h)
    | some v =>
      rw [ha] at h
      cases hm : maxDate rest with
      | none =>
        rw [hm] at h
        simp only [maxComb, Option.some.injEq] at h
        subst h
        exact List.mem_cons_self _ _
      | some m2 =>
        rw [hm] at h
        simp only [maxComb, Option.some.injEq] at h
        by_cases hle : Date.leB v m2 = true
        · rw [if_pos hle] at h
          subst h
          exact List.mem_cons_of_mem _ (ih hm)
        · rw [if_neg hle] at h
          subst h
          exact List.mem_cons_self _ _

theorem maxDate_ub {l : List (Option Date)} {m v : Date}
    (h : maxDate l = some m) (hv : some v ∈ l) : Date.leB v m = true := by
  induction l generalizing m with
  | nil => cases hv
  | cons a rest ih =>
    rw [maxDate_cons] at h
    rcases List.mem_cons.mp hv with hv | hv
    · -- the head is `some v`
      rw [← hv] at h
      cases hm : maxDate rest with
      | none =>
        rw [hm] at h
        simp only [maxComb, Option.some.injEq] at h
        subst h
        exact Date.leB_refl v
      | some m2 =>
        rw [hm] at h
        simp only [maxComb, Option.some.injEq] at h
        by_cases hle : Date.leB v m2 = true
        · rw [if_pos hle] at h; subst h; exact hle
        · rw [if_neg hle] at h; subst h; exact Date.leB_refl v
    · -- `some v` is in the tail
      cases ha : a with
      | none =>
        rw [ha] at h
        simp only [maxComb] at h
        exact ih h hv
      | some w =>
        rw [ha] at h
        cases hm : maxDate rest with
        | none =>
          have := maxDate_none hm (some v) hv
          simp at this
        | some m2 =>
          rw [hm] at h
          simp only [maxComb, Option.some.injEq] at h
          have hvm2 : Date.leB v m2 = true := ih hm hv
          by_cases hle : Date.leB w m2 = true
          · rw [if_pos hle] at h; subst h; exact hvm2
          · rw [if_neg hle] at h
            subst h
            rcases Date.leB_total w m2 with hc | hc
            · exact absurd hc hle
            · exact Date.leB_trans hvm2 hc

/-- Two lists containing the same present dates have the same maximum. -/
theorem maxDate_congr {l1 l2 : List (Option Date)}
    (h : ∀ x : Date, some x ∈ l1 ↔ some x ∈ l2) : maxDate l1 = maxDate l2 := by
  cases h1 : maxDate l1 with
  | none =>
    cases h2 : maxDate l2 with
    | none => rfl
    | some m =>
      have hm : some m ∈ l1 := (h m).mpr (maxDate_attained h2)
      have := maxDate_none h1 (some m) hm
      simp at this
  | some m =>
    cases h2 : maxDate l2 with
    | none =>
      have hm : some m ∈ l2 := (h m).mp (maxDate_attained h1)
      have := maxDate_none h2 (some m) hm
      simp at this
    | some m2 =>
      have hm12 : Date.leB m m2 = true :=
        maxDate_ub h2 ((h m).mp (maxDate_attained h1))
      have hm21 : Date.leB m2 m = true :=
        maxDate_ub h1 ((h m2).mpr (maxDate_attained h2))
      rw [Date.leB_antisymm hm12 hm21]

/-- Tied-latest catalog lookup, as in `find_all_icf_versions`: all
versions whose effective-from date equals the maximal effective-from
date that is `<=` the queried date; empty for a missing date or when no
version is in force yet. -/
def find_all_icf_versions (icf : List IcfRow) (date : Option Date) : List String :=
  match date with
  | none => []
  | some d =>
    let valid := icf.filter (fun r => pdLe r.validFrom (some d))
    match maxDate (valid.map (fun r => r.validFrom)) with
    | none => []
    | some m => (valid.filter (fun r => r.validFrom == some m)).map (fun r => r.name)

/-- Zero-padded two-digit rendering of a component, as `strftime`. -/
def pad2 (n : Nat) : String :=
  if n < 10 then "0" ++ toString n else toString n

/-- Zero-padded four-digit rendering of a year, as `strftime`. -/
def pad4 (n : Nat) : String :=
  if n < 10 then "000" ++ toString n
  else if n < 100 then "00" ++ toString n
  else if n < 1000 then "0" ++ toString n
  else toString n

/-- ISO rendering, `strftime("%Y-%m-%d")`, used for SIGNED rows. -/
def isoFormat (d : Date) : String :=
  pad4 d.year ++ "-" ++ pad2 d.month ++ "-" ++ pad2 d.day

/-- Day.month.year rendering, `strftime("%d.%m.%Y")`, used in comments. -/
def dmyFormat (d : Date) : String :=
  pad2 d.day ++ "." ++ pad2 d.month ++ "." ++ pad4 d.year

/-- Sort key of `sort_values("icdat")`: ascending dates, missing dates
last, as a boolean relation on consent rows. -/
def icdatLeB (a b : ConsentRow) : Bool :=
  match a.icdat, b.icdat with
  | some x, some y => Date.leB x y
  | some _, none => true
  | none, some _ => false
  | none, none => true

/-- Propositional form of the `icdat` sort key. -/
def icdatLE (a b : ConsentRow) : Prop :=
  icdatLeB a b = true

instance : DecidableRel icdatLE :=
  fun a b => inferInstanceAs (Decidable (icdatLeB a b = true))

instance : IsTotal ConsentRow icdatLE where
  total a b := by
    unfold icdatLE icdatLeB
    cases ha : a.icdat <;> cases hb : b.icdat <;> simp
    exact Date.leB_total _ _

instance : IsTrans ConsentRow icdatLE where
  trans a b c hab hbc := by
    unfold icdatLE icdatLeB at *
    cases ha : a.icdat <;> cases hb : b.icdat <;> cases hc : c.icdat <;>
      simp_all
    exact Date.leB_trans hab hbc

/-- The consent rows of one participant, sorted by signature date
(missing dates last), as `group.sort_values("icdat")`. -/
def sortGroup (group : List ConsentRow) : List ConsentRow :=
  List.insertionSort icdatLE group

/-- ASCII lowering of one character, as Python's `str.lower` acts on
the ASCII identifiers handled here. -/
def lowerChar (c : Char) : Char :=
  if 65 <= c.toNat ∧ c.toNat <= 90 then Char.ofNat (c.toNat + 32) else c

/-- ASCII string lowering, modelling `.lower()` on the values the
program compares (`"no"`, `"yes"` and their case variants). -/
def strLower (s : String) : String :=
  ⟨s.data.map lowerChar⟩

/-- Rendering of one randomization-group value: the literal `"-"` when
the column is absent from the table, the `pandas` rendering `"nan"`
when the column exists but the cell is empty, the cell text otherwise. -/
def fmtGroup (hasCol : Bool) (v : Option String) : String :=
  if hasCol then
    match v with
    | some s => s
    | none => "nan"
  else "-"

/-- The exit annotation: a death date takes priority over an exit date;
empty when neither is present. -/
def eosTextOf (eosDate dthDate : Option Date) : String :=
  match dthDate with
  | some d => "EOS (Death, " ++ dmyFormat d ++ ")"
  | none =>
    match eosDate with
    | some d => "EOS (" ++ dmyFormat d ++ ")"
    | none => ""

/-- `"\n".join(filter(None, [a, b]))` for exactly two pieces. -/
def joinFiltered (a b : String) : String :=
  if a == "" then b else if b == "" then a else a ++ "\n" ++ b

/-- The `signed_versions` entries contributed by one consent row: every
version the signature date resolves to, valued with the ISO-rendered
signature date. -/
def rowEntries (icf : List IcfRow) (r : ConsentRow) : List (String × String) :=
  match r.icdat with
  | none => []
  | some d => (find_all_icf_versions icf (some d)).map (fun v => (v, isoFormat d))

/-- The `signed_versions` dictionary accumulated over the (sorted)
consent rows.  Entries of later rows are placed in front so that a
front-first lookup realizes the overwrite semantics of the Python
dictionary assignment. -/
def buildSigned (icf : List IcfRow) : List ConsentRow → List (String × String)
  | [] => []
  | r :: rest => buildSigned icf rest ++ rowEntries icf r

/-- Dictionary lookup: value of the entry closest to the front. -/
def dictFind (dict : List (String × String)) (k : String) : Option String :=
  (dict.find? (fun p => p.1 == k)).map (fun p => p.2)

/-- The `Date of Consent` cell of one report row: the recorded signature
date for a signed version, else `"CHECK"` when the participant is
eligible, the version became effective strictly after the last signature
date, and the exit date is absent or not before the effective date, else
`"n.a."`. -/
def rowDate (signed : List (String × String)) (elig : String)
    (lastConsent eosDate : Option Date) (r : IcfRow) : String :=
  match dictFind signed r.name with
  | some d => d
  | none =>
    if !(elig == "no") && pdGt r.validFrom lastConsent
        && (eosDate.isNone || pdGe eosDate r.validFrom) then "CHECK"
    else "n.a."

/-- The randomization part of the comment, taken from the first row of
the sorted group. -/
def randoTextOf (hasR1 hasR2 : Bool) (sorted : List ConsentRow) : String :=
  match sorted.head? with
  | some first => fmtGroup hasR1 first.rando1 ++ " / " ++ fmtGroup hasR2 first.rando2
  | none => "- / -"

/-- The participant-wide comment: the literal `"Screening Failure"` for
an ineligible participant, else the randomization part joined with the
exit annotation. -/
def commentOf (hasR1 hasR2 : Bool) (sorted : List ConsentRow)
    (eosDate dthDate : Option Date) (elig : String) : String :=
  if elig == "no" then "Screening Failure"
  else joinFiltered (randoTextOf hasR1 hasR2 sorted) (eosTextOf eosDate dthDate)

/-- The report rows of one participant: one row per catalog entry, in
catalog order, mirroring the per-participant body of `generate_report`. -/
def participantRows (icf : List IcfRow) (hasR1 hasR2 : Bool)
    (group : List ConsentRow) (eosDate dthDate : Option Date)
    (eligRaw : String) (pid : String) : List ReportRow :=
  let sorted := sortGroup group
  let elig := strLower eligRaw
  let signed := buildSigned icf sorted
  let comment := commentOf hasR1 hasR2 sorted eosDate dthDate elig
  let lastConsent := maxDate (sorted.map (fun r => r.icdat))
  icf.map (fun r =>
    { pid := pid, version := r.name,
      date := rowDate signed elig lastConsent eosDate r, comment := comment })

/-- Exit date of a participant: the `eosdat` of the last EOS record
carrying the participant id, `none` when there is no such record. -/
def eosdatOf (tbl : List EosRow) (pid : String) : Option Date :=
  match tbl.reverse.find? (fun r => r.mnpaid == pid) with
  | some r => r.eosdat
  | none => none

/-- Death date of a participant, analogous to `eosdatOf`. -/
def dthdatOf (tbl : List EosRow) (pid : String) : Option Date :=
  match tbl.reverse.find? (fun r => r.mnpaid == pid) with
  | some r => r.dthdat
  | none => none

/-- Raw eligibility string of a participant, modelling
`elig_map.get(pid, "yes")`: the default `"yes"` only applies when there
is no record at all; a record whose eligibility cell is empty yields
`none`, on which the subsequent `.lower()` raises in the program. -/
def eligLookup (tbl : List EligRow) (pid : String) : Option String :=
  match tbl.reverse.find? (fun r => r.mnpaid == pid) with
  | some r => r.eligyn
  | none => some "yes"

/-- The participant ids processed by the engine: the distinct ids of
the consent table in ascending order, as `groupby("mnpaid")`. -/
def sortedPids (consents : ConsentsTable) : List String :=
  List.insertionSort (fun a b : String => a ≤ b)
    ((consents.rows.map (fun r => r.mnpaid)).dedup)

/-- The report rows of a list of participants, concatenated; an
eligibility record with an empty cell aborts the whole run with an
error, as the `AttributeError` does in the program. -/
def reportBlocks (icf : List IcfRow) (hasR1 hasR2 : Bool)
    (cRows : List ConsentRow) (eosTbl : List EosRow) (eligTbl : List EligRow) :
    List String → Except Unit (List ReportRow)
  | [] => Except.ok []
  | pid :: rest =>
    match eligLookup eligTbl pid with
    | none => Except.error ()
    | some e =>
      match reportBlocks icf hasR1 hasR2 cRows eosTbl eligTbl rest with
      | Except.error u => Except.error u
      | Except.ok rs =>
        Except.ok (participantRows icf hasR1 hasR2
          (cRows.filter (fun r => r.mnpaid == pid))
          (eosdatOf eosTbl pid) (dthdatOf eosTbl pid) e pid ++ rs)

/-- The report-generation core of `generate_report`: the full ordered
sequence of report rows, or an error when the run aborts. -/
def generate_report (icf : List IcfRow) (consents : ConsentsTable)
    (eosTbl : List EosRow) (eligTbl : List EligRow) : Except Unit (List ReportRow) :=
  reportBlocks icf consents.hasRando1 consents.hasRando2 consents.rows
    eosTbl eligTbl (sortedPids consents)

/-- A merged continuation row: participant id and comment blanked,
version and date kept. -/
def blankRow (r : ReportRow) : ReportRow :=
  { r with pid := "", comment := "" }

/-- Split off the longest prefix of rows carrying the given participant
id, returning it together with the remaining rows. -/
def takeRun (p : String) : List ReportRow → List ReportRow × List ReportRow
  | [] => ([], [])
  | r :: rest =>
    if r.pid == p then
      let t := takeRun p rest
      (r :: t.1, t.2)
    else ([], r :: rest)

theorem takeRun_snd_length (p : String) :
    ∀ l : List ReportRow, (takeRun p l).2.length ≤ l.length := by
  intro l
  induction l with
  | nil => simp [takeRun]
  | cons r rest ih =>
    unfold takeRun
    by_cases h : r.pid == p
    · simp only [h, if_pos]
      exact Nat.le_succ_of_le ih
    · simp only [h]
      simp

/-- The run-merging pass over the emitted rows: for each maximal run of
consecutive rows sharing a participant id, the first row keeps the
participant id and the comment and the remaining rows of the run are
blanked in those two fields, as the cell-merging loop does to the Word
table. -/
def mergeRuns : List ReportRow → List ReportRow
  | [] => []
  | r :: rest =>
    (r :: (takeRun r.pid rest).1.map blankRow) ++ mergeRuns (takeRun r.pid rest).2
termination_by l => l.length
decreasing_by
  simp only [List.length_cons]
  exact Nat.lt_succ_of_le (takeRun_snd_length r.pid rest)

/-- Modelled from the spec (§4.5), for comparison with `mergeRuns`: walk
the rows once, blanking a row exactly when its immediate predecessor
carries the same participant id. -/
def blankAfter (prev : String) : List ReportRow → List ReportRow
  | [] => []
  | r :: rest => (if r.pid == prev then blankRow r else r) :: blankAfter r.pid rest

/-- Modelled from the spec (§4.5): the first row always keeps its
fields; every later row is blanked exactly when adjacent to a
predecessor with the same participant id. -/
def mergeRunsSpec : List ReportRow → List ReportRow
  | [] => []
  | r :: rest => r :: blankAfter r.pid rest

/-! ### Supporting lemmas -/

theorem participantRows_eq (icf : List IcfRow) (h1 h2 : Bool) (g : List ConsentRow)
    (eos dth : Option Date) (eligRaw pid : String) :
    participantRows icf h1 h2 g eos dth eligRaw pid =
      icf.map (fun r =>
        { pid := pid, version := r.name,
          date := rowDate (buildSigned icf (sortGroup g)) (strLower eligRaw)
            (maxDate ((sortGroup g).map (fun r => r.icdat))) eos r,
          comment := commentOf h1 h2 (sortGroup g) eos dth (strLower eligRaw) }) := rfl

theorem participantRows_length (icf : List IcfRow) (h1 h2 : Bool) (g : List ConsentRow)
    (eos dth : Option Date) (eligRaw pid : String) :
    (participantRows icf h1 h2 g eos dth eligRaw pid).length = icf.length := by
  rw [participantRows_eq]
  exact List.length_map ..

theorem participantRows_map_version (icf : List IcfRow) (h1 h2 : Bool)
    (g : List ConsentRow) (eos dth : Option Date) (eligRaw pid : String) :
    (participantRows icf h1 h2 g eos dth eligRaw pid).map (fun r => r.version) =
      icf.map (fun r => r.name) := by
  rw [participantRows_eq, List.map_map]
  rfl

theorem participantRows_map_pid (icf : List IcfRow) (h1 h2 : Bool)
    (g : List ConsentRow) (eos dth : Option Date) (eligRaw pid : String) :
    (participantRows icf h1 h2 g eos dth eligRaw pid).map (fun r => r.pid) =
      List.replicate icf.length pid := by
  rw [participantRows_eq, List.map_map]
  show icf.map (fun _ => pid) = _
  simp

theorem mem_participantRows {icf : List IcfRow} {h1 h2 : Bool} {g : List ConsentRow}
    {eos dth : Option Date} {eligRaw pid : String} {row : ReportRow} :
    row ∈ participantRows icf h1 h2 g eos dth eligRaw pid ↔
      ∃ r ∈ icf, row =
        { pid := pid, version := r.name,
          date := rowDate (buildSigned icf (sortGroup g)) (strLower eligRaw)
            (maxDate ((sortGroup g).map (fun s => s.icdat))) eos r,
          comment := commentOf h1 h2 (sortGroup g) eos dth (strLower eligRaw) } := by
  rw [participantRows_eq, List.mem_map]
  constructor
  · rintro ⟨r, hr, he⟩
    exact ⟨r, hr, he.symm⟩
  · rintro ⟨r, hr, he⟩
    exact ⟨r, hr, he.symm⟩

theorem sorted_sortGroup (g : List ConsentRow) :
    List.Sorted icdatLE (sortGroup g) :=
  List.sorted_insertionSort icdatLE g

theorem mem_sortGroup {g : List ConsentRow} {r : ConsentRow} :
    r ∈ sortGroup g ↔ r ∈ g :=
  (List.perm_insertionSort icdatLE g).mem_iff

theorem maxDate_sortGroup (g : List ConsentRow) :
    maxDate ((sortGroup g).map (fun r => r.icdat)) =
      maxDate (g.map (fun r => r.icdat)) := by
  apply maxDate_congr
  intro x
  exact ((List.perm_insertionSort icdatLE g).map (fun r => r.icdat)).mem_iff

theorem dictFind_nil (k : String) : dictFind [] k = none := rfl

theorem dictFind_append (l1 l2 : List (String × String)) (k : String) :
    dictFind (l1 ++ l2) k = (dictFind l1 k).or (dictFind l2 k) := by
  unfold dictFind
  rw [List.find?_append]
  cases List.find? (fun p => p.1 == k) l1 <;> simp

theorem dictFind_constMap (vs : List String) (c v : String) :
    dictFind (vs.map (fun x => (x, c))) v = if v ∈ vs then some c else none := by
  induction vs with
  | nil => simp [dictFind]
  | cons a rest ih =>
    simp only [List.map_cons]
    unfold dictFind at *
    rw [List.find?_cons]
    by_cases h : a = v
    · subst h
      simp
    · have hb : ((a, c).1 == v) = false := by simpa using h
      rw [hb]
      rw [ih]
      by_cases hv : v ∈ rest
      · simp [hv, List.mem_cons, h]
      · simp only [hv, if_false]
        have : ¬ v ∈ a :: rest := by
          simp [List.mem_cons]
          exact ⟨fun he => h he.symm, hv⟩
        simp [this]

theorem dictFind_rowEntries {icf : List IcfRow} {r : ConsentRow} {v s : String} :
    dictFind (rowEntries icf r) v = some s ↔
      ∃ d, r.icdat = some d ∧ v ∈ find_all_icf_versions icf (some d) ∧
        s = isoFormat d := by
  cases hic : r.icdat with
  | none =>
    simp [rowEntries, hic, dictFind]
  | some d =>
    simp only [rowEntries, hic]
    rw [dictFind_constMap]
    by_cases hv : v ∈ find_all_icf_versions icf (some d)
    · simp only [hv, if_true, Option.some.injEq]
      constructor
      · intro h
        exact ⟨d, rfl, hv, h.symm⟩
      · rintro ⟨e, he, _, hs⟩
        cases he
        exact hs.symm
    · simp only [hv, if_false]
      constructor
      · intro h
        cases h
      · rintro ⟨e, he, hmem, _⟩
        cases he
        exact absurd hmem hv

theorem dictFind_buildSigned_cons (icf : List IcfRow) (r : ConsentRow)
    (rest : List ConsentRow) (v : String) :
    dictFind (buildSigned icf (r :: rest)) v =
      (dictFind (buildSigned icf rest) v).or (dictFind (rowEntries icf r) v) := by
  show dictFind (buildSigned icf rest ++ rowEntries icf r) v = _
  exact dictFind_append ..

theorem dictFind_buildSigned_none {icf : List IcfRow} {L : List ConsentRow} {v : String}
    (h : dictFind (buildSigned icf L) v = none) :
    ∀ r ∈ L, ∀ d, r.icdat = some d → v ∉ find_all_icf_versions icf (some d) := by
  induction L with
  | nil => intro r hr; cases hr
  | cons a rest ih =>
    intro r hr d hd hmem
    rw [dictFind_buildSigned_cons] at h
    have h1 : dictFind (buildSigned icf rest) v = none := by
      cases hx : dictFind (buildSigned icf rest) v
      · rfl
      · rw [hx] at h; simp at h
    have h2 : dictFind (rowEntries icf a) v = none := by
      rw [h1] at h
      simpa using h
    rcases List.mem_cons.mp hr with hr | hr
    · subst hr
      have : dictFind (rowEntries icf r) v = some (isoFormat d) := by
        rw [dictFind_rowEntries]
        exact ⟨d, hd, hmem, rfl⟩
      rw [h2] at this
      cases this
    · exact ih h1 r hr d hd hmem

theorem dictFind_buildSigned_some {icf : List IcfRow} {L : List ConsentRow}
    {v s : String} (hs : List.Sorted icdatLE L)
    (h : dictFind (buildSigned icf L) v = some s) :
    ∃ d, (∃ r ∈ L, r.icdat = some d ∧ v ∈ find_all_icf_versions icf (some d)) ∧
      s = isoFormat d ∧
      ∀ e, (∃ r ∈ L, r.icdat = some e ∧ v ∈ find_all_icf_versions icf (some e)) →
        Date.leB e d = true := by
  induction L with
  | nil => cases h
  | cons a rest ih =>
    rw [List.sorted_cons] at hs
    rcases hs with ⟨hrel, hsrest⟩
    rw [dictFind_buildSigned_cons] at h
    cases hx : dictFind (buildSigned icf rest) v with
    | some s2 =>
      rw [hx] at h
      simp only [Option.or_some] at h
      cases h
      rcases ih hsrest hx with ⟨d, ⟨rd, hrd, hrdic, hrdmem⟩, hds, hmax⟩
      refine ⟨d, ⟨rd, List.mem_cons_of_mem _ hrd, hrdic, hrdmem⟩, hds, ?_⟩
      rintro e ⟨re, hre, hreic, hremem⟩
      rcases List.mem_cons.mp hre with hre | hre
      · -- the head row also resolves `v`: its date precedes the pivot date
        subst hre
        have hle : icdatLE re rd := hrel rd hrd
        unfold icdatLE icdatLeB at hle
        rw [hreic, hrdic] at hle
        exact hle
      · exact hmax e ⟨re, hre, hreic, hremem⟩
    | none =>
      rw [hx] at h
      simp only [Option.or] at h
      rcases dictFind_rowEntries.mp h with ⟨d, hic, hmem, hds⟩
      have hnone := dictFind_buildSigned_none hx
      refine ⟨d, ⟨a, List.mem_cons_self _ _, hic, hmem⟩, hds, ?_⟩
      rintro e ⟨re, hre, hreic, hremem⟩
      rcases List.mem_cons.mp hre with hre | hre
      · subst hre
        rw [hic] at hreic
        cases hreic
        exact Date.leB_refl _
      · exact absurd hremem (hnone re hre e hreic)

theorem pdLe_some_iff {o : Option Date} {d : Date} :
    pdLe o (some d) = true ↔ ∃ v, o = some v ∧ Date.leB v d = true := by
  cases o <;> simp [pdLe]

theorem mem_validFilter {icf : List IcfRow} {d : Date} {r : IcfRow} :
    r ∈ icf.filter (fun r => pdLe r.validFrom (some d)) ↔
      r ∈ icf ∧ ∃ v, r.validFrom = some v ∧ Date.leB v d = true := by
  rw [List.mem_filter, pdLe_some_iff]

theorem find_all_eq_of_max_none {icf : List IcfRow} {d : Date}
    (h : maxDate ((icf.filter (fun r => pdLe r.validFrom (some d))).map
      (fun r => r.validFrom)) = none) :
    find_all_icf_versions icf (some d) = [] := by
  simp only [find_all_icf_versions, h]

theorem find_all_eq_of_max_some {icf : List IcfRow} {d m : Date}
    (h : maxDate ((icf.filter (fun r => pdLe r.validFrom (some d))).map
      (fun r => r.validFrom)) = some m) :
    find_all_icf_versions icf (some d) =
      ((icf.filter (fun r => pdLe r.validFrom (some d))).filter
        (fun r => r.validFrom == some m)).map (fun r => r.name) := by
  simp only [find_all_icf_versions, h]

/-- C3: the tied-latest lookup returns exactly the names of the catalog
rows whose effective-from date is the maximal effective-from date that
is at most the queried date; it is empty for a missing date and when no
version is in force at the date. -/
theorem tiedLatest_lookup_correct (icf : List IcfRow) :
    find_all_icf_versions icf none = [] ∧
    (∀ d : Date, find_all_icf_versions icf (some d) = [] ↔
      ∀ r ∈ icf, ∀ v : Date, r.validFrom = some v → Date.leB v d = false) ∧
    (∀ d : Date, ∀ name : String,
      name ∈ find_all_icf_versions icf (some d) ↔
        ∃ m : Date, Date.leB m d = true ∧
          (∀ r ∈ icf, ∀ v : Date, r.validFrom = some v → Date.leB v d = true →
            Date.leB v m = true) ∧
          ∃ r ∈ icf, r.name = name ∧ r.validFrom = some m) := by
  refine ⟨rfl, ?_, ?_⟩
  · -- the empty-result characterization
    intro d
    constructor
    · intro hempty r hr v hv
      by_contra hvd
      rw [Bool.not_eq_false] at hvd
      have hrv : r ∈ icf.filter (fun r => pdLe r.validFrom (some d)) :=
        mem_validFilter.mpr ⟨hr, v, hv, hvd⟩
      have hvm : some v ∈ (icf.filter (fun r => pdLe r.validFrom (some d))).map
          (fun r => r.validFrom) := by
        rw [List.mem_map]
        exact ⟨r, hrv, hv⟩
      cases hmax : maxDate ((icf.filter (fun r => pdLe r.validFrom (some d))).map
          (fun r => r.validFrom)) with
      | none =>
        have := maxDate_none hmax (some v) hvm
        cases this
      | some m =>
        rw [find_all_eq_of_max_some hmax] at hempty
        rcases List.mem_map.mp (maxDate_attained hmax) with ⟨rm, hrm, hrmv⟩
        have hrmf : rm ∈ (icf.filter (fun r => pdLe r.validFrom (some d))).filter
            (fun r => r.validFrom == some m) := by
          rw [List.mem_filter]
          exact ⟨hrm, by simp [hrmv]⟩
        have : rm.name ∈ ((icf.filter (fun r => pdLe r.validFrom (some d))).filter
            (fun r => r.validFrom == some m)).map (fun r => r.name) := by
          rw [List.mem_map]
          exact ⟨rm, hrmf, rfl⟩
        rw [hempty] at this
        cases this
    · intro hnone
      have hfe : icf.filter (fun r => pdLe r.validFrom (some d)) = [] := by
        rw [List.filter_eq_nil_iff]
        intro r hr
        cases hv : r.validFrom with
        | none => simp [pdLe]
        | some v =>
          simp only [pdLe]
          rw [hnone r hr v hv]
          simp
      apply find_all_eq_of_max_none
      rw [hfe]
      rfl
  · -- the membership characterization
    intro d name
    cases hmax : maxDate ((icf.filter (fun r => pdLe r.validFrom (some d))).map
        (fun r => r.validFrom)) with
    | none =>
      rw [find_all_eq_of_max_none hmax]
      constructor
      · intro h; cases h
      · rintro ⟨m, hmd, _, r, hr, _, hrv⟩
        have hrvalid : r ∈ icf.filter (fun r => pdLe r.validFrom (some d)) :=
          mem_validFilter.mpr ⟨hr, m, hrv, hmd⟩
        have hmem : some m ∈ (icf.filter (fun r => pdLe r.validFrom (some d))).map
            (fun r => r.validFrom) := List.mem_map.mpr ⟨r, hrvalid, hrv⟩
        have := maxDate_none hmax (some m) hmem
        cases this
    | some m0 =>
      rw [find_all_eq_of_max_some hmax]
      have hm0d : Date.leB m0 d = true := by
        rcases List.mem_map.mp (maxDate_attained hmax) with ⟨rm, hrm, hrmv⟩
        rcases mem_validFilter.mp hrm with ⟨_, v, hv, hvd⟩
        rw [hv] at hrmv
        cases hrmv
        exact hvd
      constructor
      · intro hname
        rcases List.mem_map.mp hname with ⟨r, hrf, hrn⟩
        rcases List.mem_filter.mp hrf with ⟨hrvalid, hrbeq⟩
        have hrv : r.validFrom = some m0 := by simpa using hrbeq
        refine ⟨m0, hm0d, ?_, r, (mem_validFilter.mp hrvalid).1, hrn, hrv⟩
        intro r2 hr2 v hv hvd
        have hr2valid : r2 ∈ icf.filter (fun r => pdLe r.validFrom (some d)) :=
          mem_validFilter.mpr ⟨hr2, v, hv, hvd⟩
        exact maxDate_ub hmax (List.mem_map.mpr ⟨r2, hr2valid, hv⟩)
      · rintro ⟨m, hmd, hmaxm, r, hr, hrn, hrv⟩
        have hrvalid : r ∈ icf.filter (fun r => pdLe r.validFrom (some d)) :=
          mem_validFilter.mpr ⟨hr, m, hrv, hmd⟩
        have hmm0 : Date.leB m m0 = true :=
          maxDate_ub hmax (List.mem_map.mpr ⟨r, hrvalid, hrv⟩)
        have hm0m : Date.leB m0 m = true := by
          rcases List.mem_map.mp (maxDate_attained hmax) with ⟨rm, hrm, hrmv⟩
          rcases mem_validFilter.mp hrm with ⟨hrmicf, v, hv, hvd⟩
          have hvm0 : v = m0 := by
            rw [hv] at hrmv
            injection hrmv
          subst hvm0
          exact hmaxm rm hrmicf _ hv hvd
        have hmeq : m = m0 := Date.leB_antisymm hmm0 hm0m
        subst hmeq
        apply List.mem_map.mpr
        refine ⟨r, ?_, hrn⟩
        rw [List.mem_filter]
        exact ⟨hrvalid, by simp [hrv]⟩

theorem blankAfter_eq_takeRun (p : String) (l : List ReportRow) :
    blankAfter p l =
      (takeRun p l).1.map blankRow ++ mergeRunsSpec (takeRun p l).2 := by
  induction l generalizing p with
  | nil => rfl
  | cons r rest ih =>
    by_cases h : r.pid = p
    · have hb : (r.pid == p) = true := by simpa using h
      simp only [blankAfter, takeRun, hb, if_pos, List.map_cons, List.cons_append]
      rw [h]
      rw [ih p]
    · have hb : (r.pid == p) = false := by simpa using h
      simp only [blankAfter, takeRun, hb, Bool.false_eq_true, if_false, List.map_nil,
        List.nil_append, mergeRunsSpec]

theorem mergeRuns_eq_mergeRunsSpec (l : List ReportRow) :
    mergeRuns l = mergeRunsSpec l := by
  suffices h : ∀ n (l : List ReportRow), l.length ≤ n → mergeRuns l = mergeRunsSpec l from
    h l.length l le_rfl
  intro n
  induction n with
  | zero =>
    intro l hl
    have : l = [] := List.eq_nil_of_length_eq_zero (Nat.le_zero.mp hl)
    subst this
    simp only [mergeRuns, mergeRunsSpec]
  | succ n ih =>
    intro l hl
    cases l with
    | nil => simp only [mergeRuns, mergeRunsSpec]
    | cons r rest =>
      have hm : mergeRuns (r :: rest) =
          (r :: (takeRun r.pid rest).1.map blankRow) ++ mergeRuns (takeRun r.pid rest).2 := by
        simp only [mergeRuns]
      rw [hm]
      rw [ih (takeRun r.pid rest).2
        (le_trans (takeRun_snd_length _ _) (Nat.le_of_succ_le_succ hl))]
      show r :: ((takeRun r.pid rest).1.map blankRow ++ mergeRunsSpec (takeRun r.pid rest).2) =
        mergeRunsSpec (r :: rest)
      rw [← blankAfter_eq_takeRun]
      rfl

theorem blankAfter_length (p : String) (l : List ReportRow) :
    (blankAfter p l).length = l.length := by
  induction l generalizing p with
  | nil => rfl
  | cons r rest ih =>
    simp only [blankAfter, List.length_cons, ih]

theorem mergeRunsSpec_length (l : List ReportRow) :
    (mergeRunsSpec l).length = l.length := by
  cases l with
  | nil => rfl
  | cons r rest => simp only [mergeRunsSpec, List.length_cons, blankAfter_length]

theorem blankAfter_proj (p : String) (l : List ReportRow) :
    (blankAfter p l).map (fun r => (r.version, r.date)) =
      l.map (fun r => (r.version, r.date)) := by
  induction l generalizing p with
  | nil => rfl
  | cons r rest ih =>
    simp only [blankAfter, List.map_cons, ih]
    by_cases h : r.pid == p
    · simp [h, blankRow]
    · simp [h]

theorem mergeRunsSpec_proj (l : List ReportRow) :
    (mergeRunsSpec l).map (fun r => (r.version, r.date)) =
      l.map (fun r => (r.version, r.date)) := by
  cases l with
  | nil => rfl
  | cons r rest => simp only [mergeRunsSpec, List.map_cons, blankAfter_proj]

/-- C8: the run-merging pass blanks the participant-id and comment
fields of exactly the rows adjacent to a predecessor with the same
participant id (so only maximal runs of consecutive equal ids are
collapsed and non-adjacent rows are never merged), keeps version and
date of every row, and preserves the row count. -/
theorem mergeRuns_correct (rows : List ReportRow) :
    mergeRuns rows = mergeRunsSpec rows ∧
    (mergeRuns rows).length = rows.length ∧
    (mergeRuns rows).map (fun r => (r.version, r.date)) =
      rows.map (fun r => (r.version, r.date)) := by
  refine ⟨mergeRuns_eq_mergeRunsSpec rows, ?_, ?_⟩
  · rw [mergeRuns_eq_mergeRunsSpec, mergeRunsSpec_length]
  · rw [mergeRuns_eq_mergeRunsSpec, mergeRunsSpec_proj]

theorem pdGt_some_iff {o : Option Date} {vf : Date} :
    pdGt (some vf) o = true ↔ ∃ lc, o = some lc ∧ Date.ltB lc vf = true := by
  cases o <;> simp [pdGt]

theorem pdGe_some_iff {o : Option Date} {vf : Date} :
    pdGe o (some vf) = true ↔ ∃ e, o = some e ∧ Date.leB vf e = true := by
  cases o <;> simp [pdGe]

theorem pdGt_none_right (o : Option Date) : pdGt o none = false := by
  cases o <;> rfl

theorem maxDate_all_none {l : List (Option Date)} (h : ∀ d ∈ l, d = none) :
    maxDate l = none := by
  induction l with
  | nil => rfl
  | cons a rest ih =>
    rw [maxDate_cons, h a (List.mem_cons_self _ _),
      ih (fun d hd => h d (List.mem_cons_of_mem _ hd))]
    rfl

theorem buildSigned_eq_nil {icf : List IcfRow} {L : List ConsentRow}
    (h : ∀ r ∈ L, r.icdat = none) : buildSigned icf L = [] := by
  induction L with
  | nil => rfl
  | cons a rest ih =>
    show buildSigned icf rest ++ rowEntries icf a = []
    rw [ih (fun r hr => h r (List.mem_cons_of_mem _ hr))]
    simp only [rowEntries, h a (List.mem_cons_self _ _), List.nil_append]

theorem strNeEmpty_of_length_pos {s : String} (h : 0 < s.length) : s ≠ "" := by
  intro he
  rw [he] at h
  exact Nat.lt_irrefl 0 h

/-- C1: for an eligible participant with at least one signature-event
row, a catalog version with a real effective date that was not signed is
marked `"CHECK"` exactly when its effective date is strictly after the
participant's last (maximal) signature date and the exit date is absent
or not before the effective date; otherwise it is marked `"n.a."`. -/
theorem needsVerification_iff (icf : List IcfRow) (h1 h2 : Bool)
    (group : List ConsentRow) (eosDate dthDate : Option Date)
    (eligRaw pid : String) (i : Nat) (hi : i < icf.length) (vf : Date)
    (hne : group ≠ [])
    (helig : strLower eligRaw ≠ "no")
    (hvf : (icf.get ⟨i, hi⟩).validFrom = some vf)
    (hns : dictFind (buildSigned icf (sortGroup group)) (icf.get ⟨i, hi⟩).name = none) :
    ∀ row, (participantRows icf h1 h2 group eosDate dthDate eligRaw pid).get? i = some row →
      (row.date = "CHECK" ∨ row.date = "n.a.") ∧
      (row.date = "CHECK" ↔
        ((∃ lc, maxDate (group.map (fun r => r.icdat)) = some lc ∧ Date.ltB lc vf = true) ∧
         (eosDate = none ∨ ∃ e, eosDate = some e ∧ Date.leB vf e = true))) := by
  intro row hrow
  rw [participantRows_eq] at hrow
  rw [List.get?_map, List.get?_eq_get hi] at hrow
  rw [Option.map_some'] at hrow
  injection hrow with hrow
  subst hrow
  have heligb : (strLower eligRaw == "no") = false := by simpa using helig
  have hd : rowDate (buildSigned icf (sortGroup group)) (strLower eligRaw)
      (maxDate ((sortGroup group).map (fun r => r.icdat))) eosDate (icf.get ⟨i, hi⟩) =
      (if pdGt (icf.get ⟨i, hi⟩).validFrom (maxDate (group.map (fun r => r.icdat)))
          && (eosDate.isNone || pdGe eosDate (icf.get ⟨i, hi⟩).validFrom) then "CHECK"
       else "n.a.") := by
    simp only [rowDate, hns, maxDate_sortGroup, heligb, Bool.not_false, Bool.true_and]
  dsimp only
  rw [hd]
  by_cases hcond : (pdGt (icf.get ⟨i, hi⟩).validFrom (maxDate (group.map (fun r => r.icdat)))
      && (eosDate.isNone || pdGe eosDate (icf.get ⟨i, hi⟩).validFrom)) = true
  · rw [if_pos hcond]
    rw [Bool.and_eq_true] at hcond
    rcases hcond with ⟨hgt, hex⟩
    rw [hvf] at hgt
    refine ⟨Or.inl rfl, fun _ => ?_, fun _ => rfl⟩
    refine ⟨pdGt_some_iff.mp hgt, ?_⟩
    rw [Bool.or_eq_true] at hex
    rcases hex with hex | hex
    · exact Or.inl (Option.isNone_iff_eq_none.mp hex)
    · rw [hvf] at hex
      exact Or.inr (pdGe_some_iff.mp hex)
  · rw [if_neg hcond]
    refine ⟨Or.inr rfl, fun h => absurd h (by decide), fun hr => ?_⟩
    exfalso
    apply hcond
    rcases hr with ⟨hlast, hexit⟩
    rw [Bool.and_eq_true]
    constructor
    · rw [hvf]
      exact pdGt_some_iff.mpr hlast
    · rw [Bool.or_eq_true]
      rcases hexit with hexit | hexit
      · exact Or.inl (Option.isNone_iff_eq_none.mpr hexit)
      · rw [hvf]
        exact Or.inr (pdGe_some_iff.mpr hexit)

/-- C1 witness: a participant who signed before a second version became
effective and never exited is flagged `"CHECK"` for that version. -/
theorem needsVerification_iff_witness :
    (⟨"P1", "V2", "CHECK", "- / -"⟩ : ReportRow).date = "CHECK" := by
  have h := needsVerification_iff
    [⟨"V1", some ⟨2020, 1, 1⟩⟩, ⟨"V2", some ⟨2021, 1, 1⟩⟩] false false
    [⟨"P1", some ⟨2020, 6, 1⟩, none, none⟩] none none "yes" "P1" 1
    (by decide) ⟨2021, 1, 1⟩ (by decide) (by decide) (by rfl) (by rfl)
    ⟨"P1", "V2", "CHECK", "- / -"⟩ (by rfl)
  exact h.2.mpr ⟨⟨⟨2020, 6, 1⟩, by rfl, by decide⟩, Or.inl rfl⟩

/-- C4: an ineligible participant always carries the comment
`"Screening Failure"`; a signed version still shows its recorded date,
and every version that is not signed is `"n.a."` (never `"CHECK"`). -/
theorem ineligible_rows (icf : List IcfRow) (h1 h2 : Bool)
    (group : List ConsentRow) (eosDate dthDate : Option Date)
    (eligRaw pid : String) (helig : strLower eligRaw = "no") :
    ∀ row ∈ participantRows icf h1 h2 group eosDate dthDate eligRaw pid,
      row.comment = "Screening Failure" ∧
      (∀ d, dictFind (buildSigned icf (sortGroup group)) row.version = some d →
        row.date = d) ∧
      (dictFind (buildSigned icf (sortGroup group)) row.version = none →
        row.date = "n.a.") := by
  intro row hrow
  rcases mem_participantRows.mp hrow with ⟨r, hr, he⟩
  subst he
  refine ⟨?_, ?_, ?_⟩
  · simp [commentOf, helig]
  · intro d hd
    dsimp only at hd ⊢
    simp only [rowDate, hd]
  · intro hd
    dsimp only at hd ⊢
    simp only [rowDate, hd, helig]
    simp

/-- C4 witness: an ineligible participant who signed one version shows
the signed date there and the comment `"Screening Failure"`. -/
theorem ineligible_rows_witness :
    (⟨"P1", "V1", "2020-06-01", "Screening Failure"⟩ : ReportRow).comment =
      "Screening Failure" ∧
    (⟨"P1", "V1", "2020-06-01", "Screening Failure"⟩ : ReportRow).date =
      "2020-06-01" := by
  have h := ineligible_rows [⟨"V1", some ⟨2020, 1, 1⟩⟩, ⟨"V2", some ⟨2021, 1, 1⟩⟩]
    false false [⟨"P1", some ⟨2020, 6, 1⟩, none, none⟩] none none "No" "P1" (by rfl)
    ⟨"P1", "V1", "2020-06-01", "Screening Failure"⟩ (by decide)
  exact ⟨h.1, h.2.1 "2020-06-01" (by rfl)⟩

/-- C6: a participant none of whose signature dates parsed gets one row
per catalog version, every one of them `"n.a."`; the computation
degrades, it does not fail. -/
theorem unparseable_dates_all_na (icf : List IcfRow) (h1 h2 : Bool)
    (group : List ConsentRow) (eosDate dthDate : Option Date)
    (eligRaw pid : String) (hdates : ∀ r ∈ group, r.icdat = none) :
    (participantRows icf h1 h2 group eosDate dthDate eligRaw pid).length = icf.length ∧
    ∀ row ∈ participantRows icf h1 h2 group eosDate dthDate eligRaw pid,
      row.date = "n.a." := by
  refine ⟨participantRows_length .., ?_⟩
  intro row hrow
  rcases mem_participantRows.mp hrow with ⟨r, hr, he⟩
  subst he
  have hsd : ∀ s ∈ sortGroup group, s.icdat = none :=
    fun s hs => hdates s (mem_sortGroup.mp hs)
  have hsig : buildSigned icf (sortGroup group) = [] := buildSigned_eq_nil hsd
  have hlast : maxDate ((sortGroup group).map (fun s => s.icdat)) = none := by
    apply maxDate_all_none
    intro d hd
    rcases List.mem_map.mp hd with ⟨s, hs, hds⟩
    rw [← hds]
    exact hsd s hs
  dsimp only
  simp only [rowDate, hsig, hlast, dictFind_nil, pdGt_none_right]
  simp

/-- C6 witness: a participant with one unparseable signature date gets
two rows and `"n.a."` on the first catalog version. -/
theorem unparseable_dates_all_na_witness :
    (participantRows [⟨"V1", some ⟨2020, 1, 1⟩⟩, ⟨"V2", some ⟨2021, 1, 1⟩⟩]
      false false [⟨"P1", none, none, none⟩] none none "yes" "P1").length = 2 ∧
    (⟨"P1", "V1", "n.a.", "- / -"⟩ : ReportRow).date = "n.a." := by
  have h := unparseable_dates_all_na
    [⟨"V1", some ⟨2020, 1, 1⟩⟩, ⟨"V2", some ⟨2021, 1, 1⟩⟩]
    false false [⟨"P1", none, none, none⟩] none none "yes" "P1" (by decide)
  exact ⟨h.1, h.2 ⟨"P1", "V1", "n.a.", "- / -"⟩ (by decide)⟩

theorem strEmpty_of_length_zero {s : String} (h : s.length = 0) : s = "" := by
  cases s with
  | mk data =>
    cases data with
    | nil => rfl
    | cons c cs => simp [String.length] at h

theorem append_ne_empty_right {b : String} (hb : b ≠ "") (a : String) :
    a ++ b ≠ "" := by
  intro he
  apply hb
  have hlen : (a ++ b).length = 0 := by rw [he]; rfl
  rw [String.length_append] at hlen
  exact strEmpty_of_length_zero (by omega)

theorem append_ne_empty_left {a : String} (ha : a ≠ "") (b : String) :
    a ++ b ≠ "" := by
  intro he
  apply ha
  have hlen : (a ++ b).length = 0 := by rw [he]; rfl
  rw [String.length_append] at hlen
  exact strEmpty_of_length_zero (by omega)

/-- C7: an eligible participant's comment is the randomization pair of
the first (earliest-dated) consent row — with placeholders for missing
values — followed, after a line break, by the death annotation if a
death date is present (death has priority), else the exit annotation if
an exit date is present, else nothing: the separator appears only when
the exit part is non-empty, and the annotation dates render as
day.month.year. -/
theorem eligible_comment_format (icf : List IcfRow) (h1 h2 : Bool)
    (group : List ConsentRow) (eosDate dthDate : Option Date)
    (eligRaw pid : String) (first : ConsentRow)
    (helig : strLower eligRaw ≠ "no")
    (hfirst : (sortGroup group).head? = some first) :
    ∀ row ∈ participantRows icf h1 h2 group eosDate dthDate eligRaw pid,
      row.comment =
        (match dthDate with
         | some d =>
           (fmtGroup h1 first.rando1 ++ " / " ++ fmtGroup h2 first.rando2) ++
             "\n" ++ ("EOS (Death, " ++ dmyFormat d ++ ")")
         | none =>
           match eosDate with
           | some d =>
             (fmtGroup h1 first.rando1 ++ " / " ++ fmtGroup h2 first.rando2) ++
               "\n" ++ ("EOS (" ++ dmyFormat d ++ ")")
           | none =>
             fmtGroup h1 first.rando1 ++ " / " ++ fmtGroup h2 first.rando2) := by
  intro row hrow
  rcases mem_participantRows.mp hrow with ⟨r, hr, he⟩
  subst he
  dsimp only
  have heligb : (strLower eligRaw == "no") = false := by simpa using helig
  have hRne : (fmtGroup h1 first.rando1 ++ " / " ++ fmtGroup h2 first.rando2) ≠ "" :=
    append_ne_empty_left (append_ne_empty_right (by decide) _) _
  have hRb : ((fmtGroup h1 first.rando1 ++ " / " ++ fmtGroup h2 first.rando2) == "")
      = false := by
    rw [beq_eq_false_iff_ne]
    exact hRne
  simp only [commentOf, heligb, Bool.false_eq_true, if_false, randoTextOf, hfirst]
  cases dthDate with
  | some d =>
    have hEb : (("EOS (Death, " ++ dmyFormat d ++ ")" : String) == "") = false := by
      rw [beq_eq_false_iff_ne]
      exact append_ne_empty_right (by decide) _
    simp only [eosTextOf, joinFiltered, hRb, hEb, Bool.false_eq_true, if_false]
  | none =>
    cases eosDate with
    | some d =>
      have hEb : (("EOS (" ++ dmyFormat d ++ ")" : String) == "") = false := by
        rw [beq_eq_false_iff_ne]
        exact append_ne_empty_right (by decide) _
      simp only [eosTextOf, joinFiltered, hRb, hEb, Bool.false_eq_true, if_false]
    | none =>
      simp only [eosTextOf, joinFiltered, hRb, Bool.false_eq_true, if_false]
      simp

/-- C7 witness: a deceased eligible participant's comment carries the
randomization pair, a line break, and the death annotation in
day.month.year format. -/
theorem eligible_comment_format_witness :
    (⟨"P1", "V1", "2020-06-01", "A / B\nEOS (Death, 01.03.2021)"⟩ : ReportRow).comment =
      "A / B\nEOS (Death, 01.03.2021)" := by
  have h := eligible_comment_format [⟨"V1", some ⟨2020, 1, 1⟩⟩] true true
    [⟨"P1", some ⟨2020, 6, 1⟩, some "A", some "B"⟩] none (some ⟨2021, 3, 1⟩)
    "yes" "P1" ⟨"P1", some ⟨2020, 6, 1⟩, some "A", some "B"⟩ (by decide) (by rfl)
    ⟨"P1", "V1", "2020-06-01", "A / B\nEOS (Death, 01.03.2021)"⟩ (by decide)
  exact h.trans (by rfl)

theorem reportBlocks_pid_map (icf : List IcfRow) (h1 h2 : Bool)
    (cRows : List ConsentRow) (eosTbl : List EosRow) (eligTbl : List EligRow) :
    ∀ pids rows, reportBlocks icf h1 h2 cRows eosTbl eligTbl pids = Except.ok rows →
      rows.map (fun r => r.pid) =
        (pids.map (fun p => List.replicate icf.length p)).flatten := by
  intro pids
  induction pids with
  | nil =>
    intro rows h
    simp only [reportBlocks] at h
    injection h with h
    subst h
    rfl
  | cons p rest ih =>
    intro rows h
    cases he : eligLookup eligTbl p with
    | none =>
      simp only [reportBlocks, he] at h
      exact Except.noConfusion h
    | some e =>
      cases hrb : reportBlocks icf h1 h2 cRows eosTbl eligTbl rest with
      | error u =>
        simp only [reportBlocks, he, hrb] at h
        exact Except.noConfusion h
      | ok rs =>
        simp only [reportBlocks, he, hrb] at h
        injection h with h
        subst h
        rw [List.map_append, List.map_cons, List.flatten_cons]
        rw [participantRows_map_pid, ih rs hrb]

theorem reportBlocks_pids_sub (icf : List IcfRow) (h1 h2 : Bool)
    (cRows : List ConsentRow) (eosTbl : List EosRow) (eligTbl : List EligRow)
    {pids : List String} {rows : List ReportRow}
    (h : reportBlocks icf h1 h2 cRows eosTbl eligTbl pids = Except.ok rows) :
    ∀ row ∈ rows, row.pid ∈ pids := by
  intro row hrow
  have hm : row.pid ∈ rows.map (fun r => r.pid) := List.mem_map.mpr ⟨row, hrow, rfl⟩
  rw [reportBlocks_pid_map icf h1 h2 cRows eosTbl eligTbl pids rows h] at hm
  rcases List.mem_flatten.mp hm with ⟨chunk, hchunk, hpc⟩
  rcases List.mem_map.mp hchunk with ⟨p, hp, hcp⟩
  rw [← hcp] at hpc
  rw [List.eq_of_mem_replicate hpc]
  exact hp

theorem reportBlocks_filter_version (icf : List IcfRow) (h1 h2 : Bool)
    (cRows : List ConsentRow) (eosTbl : List EosRow) (eligTbl : List EligRow) :
    ∀ pids rows, pids.Nodup →
      reportBlocks icf h1 h2 cRows eosTbl eligTbl pids = Except.ok rows →
      ∀ p ∈ pids, (rows.filter (fun r => r.pid == p)).map (fun r => r.version) =
        icf.map (fun r => r.name) := by
  intro pids
  induction pids with
  | nil =>
    intro rows _ _ p hp
    cases hp
  | cons q rest ih =>
    intro rows hnd h p hp
    cases he : eligLookup eligTbl q with
    | none =>
      simp only [reportBlocks, he] at h
      exact Except.noConfusion h
    | some e =>
      cases hrb : reportBlocks icf h1 h2 cRows eosTbl eligTbl rest with
      | error u =>
        simp only [reportBlocks, he, hrb] at h
        exact Except.noConfusion h
      | ok rs =>
        simp only [reportBlocks, he, hrb] at h
        injection h with h
        subst h
        rw [List.filter_append, List.map_append]
        have hblockpid : ∀ row ∈ participantRows icf h1 h2
            (cRows.filter (fun r => r.mnpaid == q))
            (eosdatOf eosTbl q) (dthdatOf eosTbl q) e q, row.pid = q := by
          intro row hrow
          have : row.pid ∈ (participantRows icf h1 h2
              (cRows.filter (fun r => r.mnpaid == q))
              (eosdatOf eosTbl q) (dthdatOf eosTbl q) e q).map (fun r => r.pid) :=
            List.mem_map.mpr ⟨row, hrow, rfl⟩
          rw [participantRows_map_pid] at this
          exact List.eq_of_mem_replicate this
        rcases List.mem_cons.mp hp with hp | hp
        · -- the queried participant is the head: their whole block matches
          subst hp
          have hqrest : p ∉ rest := (List.nodup_cons.mp hnd).1
          have hfb : (participantRows icf h1 h2
              (cRows.filter (fun r => r.mnpaid == p))
              (eosdatOf eosTbl p) (dthdatOf eosTbl p) e p).filter
                (fun r => r.pid == p) =
              participantRows icf h1 h2 (cRows.filter (fun r => r.mnpaid == p))
                (eosdatOf eosTbl p) (dthdatOf eosTbl p) e p := by
            apply List.filter_eq_self.mpr
            intro row hrow
            simpa using hblockpid row hrow
          have hfr : rs.filter (fun r => r.pid == p) = [] := by
            apply List.filter_eq_nil_iff.mpr
            intro row hrow
            have := reportBlocks_pids_sub icf h1 h2 cRows eosTbl eligTbl hrb row hrow
            simp only [beq_iff_eq]
            intro heq
            rw [heq] at this
            exact hqrest this
          rw [hfb, hfr]
          simp only [List.map_nil, List.append_nil]
          exact participantRows_map_version ..
        · -- the queried participant sits in the tail
          have hqrest : q ∉ rest := (List.nodup_cons.mp hnd).1
          have hpq : p ≠ q := fun heq => hqrest (heq ▸ hp)
          have hfb : (participantRows icf h1 h2
              (cRows.filter (fun r => r.mnpaid == q))
              (eosdatOf eosTbl q) (dthdatOf eosTbl q) e q).filter
                (fun r => r.pid == p) = [] := by
            apply List.filter_eq_nil_iff.mpr
            intro row hrow
            rw [hblockpid row hrow]
            simpa using fun heq => hpq heq.symm
          rw [hfb]
          simp only [List.map_nil, List.nil_append]
          exact ih rs (List.nodup_cons.mp hnd).2 hrb p hp

theorem flatten_replicate_length (n : Nat) (pids : List String) :
    ((pids.map (fun p => List.replicate n p)).flatten).length = pids.length * n := by
  induction pids with
  | nil => simp
  | cons p rest ih =>
    rw [List.map_cons, List.flatten_cons, List.length_append, List.length_replicate, ih,
      List.length_cons]
    ring

theorem nodup_sortedPids (consents : ConsentsTable) : (sortedPids consents).Nodup := by
  unfold sortedPids
  exact ((List.perm_insertionSort (fun a b : String => a ≤ b)
    ((consents.rows.map (fun r => r.mnpaid)).dedup)).symm).nodup
    (List.nodup_dedup (consents.rows.map (fun r => r.mnpaid)))

theorem sorted_le_sortedPids (consents : ConsentsTable) :
    List.Sorted (fun a b : String => a ≤ b) (sortedPids consents) := by
  unfold sortedPids
  exact List.sorted_insertionSort _ _

theorem mem_sortedPids {consents : ConsentsTable} {p : String}
    (hp : p ∈ sortedPids consents) : p ∈ consents.rows.map (fun r => r.mnpaid) := by
  unfold sortedPids at hp
  exact List.mem_dedup.mp ((List.perm_insertionSort _ _).mem_iff.mp hp)

theorem sorted_lt_of_sorted_le_nodup {l : List String}
    (h : List.Sorted (fun a b : String => a ≤ b) l) (hn : l.Nodup) :
    List.Sorted (fun a b : String => a < b) l := by
  induction l with
  | nil => exact List.sorted_nil
  | cons a rest ih =>
    rw [List.sorted_cons] at h ⊢
    rcases h with ⟨h1, h2⟩
    rw [List.nodup_cons] at hn
    exact ⟨fun b hb => lt_of_le_of_ne (h1 b hb) (fun he => hn.1 (he ▸ hb)), ih h2 hn.2⟩

/-- C5: a successful report run emits exactly one row per processed
participant and catalog entry — the full cross product — and for each
participant the rows carry the catalog's version names in catalog
order. -/
theorem report_cross_product (icf : List IcfRow) (consents : ConsentsTable)
    (eosTbl : List EosRow) (eligTbl : List EligRow) (rows : List ReportRow)
    (h : generate_report icf consents eosTbl eligTbl = Except.ok rows) :
    rows.length = (sortedPids consents).length * icf.length ∧
    ∀ p ∈ sortedPids consents,
      (rows.filter (fun r => r.pid == p)).map (fun r => r.version) =
        icf.map (fun r => r.name) := by
  unfold generate_report at h
  constructor
  · have hm := reportBlocks_pid_map icf consents.hasRando1 consents.hasRando2
      consents.rows eosTbl eligTbl (sortedPids consents) rows h
    calc rows.length
        = (rows.map (fun r => r.pid)).length := (List.length_map ..).symm
      _ = (((sortedPids consents).map (fun p => List.replicate icf.length p)).flatten).length := by
          rw [hm]
      _ = (sortedPids consents).length * icf.length :=
          flatten_replicate_length icf.length (sortedPids consents)
  · exact reportBlocks_filter_version icf consents.hasRando1 consents.hasRando2
      consents.rows eosTbl eligTbl (sortedPids consents) rows
      (nodup_sortedPids consents) h

/-- C5 witness: one participant and one catalog version give exactly one
row carrying that version name. -/
theorem report_cross_product_witness :
    ([(⟨"P1", "V1", "2020-02-01", "- / -"⟩ : ReportRow)].length =
      (sortedPids ⟨[⟨"P1", some ⟨2020, 2, 1⟩, none, none⟩], false, false⟩).length * 1) ∧
    ([(⟨"P1", "V1", "2020-02-01", "- / -"⟩ : ReportRow)].filter
      (fun r => r.pid == "P1")).map (fun r => r.version) = ["V1"] := by
  have h := report_cross_product [⟨"V1", some ⟨2020, 1, 1⟩⟩]
    ⟨[⟨"P1", some ⟨2020, 2, 1⟩, none, none⟩], false, false⟩ [] []
    [⟨"P1", "V1", "2020-02-01", "- / -"⟩] (by rfl)
  exact ⟨h.1, h.2 "P1" (by decide)⟩

/-- C10: the emitted rows are grouped contiguously by participant id —
one block of `|catalog|` rows per id, in strictly ascending id order —
and only participants present in the consent table produce rows. -/
theorem report_grouped_sorted (icf : List IcfRow) (consents : ConsentsTable)
    (eosTbl : List EosRow) (eligTbl : List EligRow) (rows : List ReportRow)
    (h : generate_report icf consents eosTbl eligTbl = Except.ok rows) :
    rows.map (fun r => r.pid) =
      ((sortedPids consents).map (fun p => List.replicate icf.length p)).flatten ∧
    List.Sorted (fun a b : String => a < b) (sortedPids consents) ∧
    ∀ p ∈ sortedPids consents, p ∈ consents.rows.map (fun r => r.mnpaid) := by
  unfold generate_report at h
  refine ⟨reportBlocks_pid_map icf consents.hasRando1 consents.hasRando2
    consents.rows eosTbl eligTbl (sortedPids consents) rows h, ?_, ?_⟩
  · exact sorted_lt_of_sorted_le_nodup (sorted_le_sortedPids consents)
      (nodup_sortedPids consents)
  · intro p hp
    exact mem_sortedPids hp

/-- C10 witness: a single-participant run is grouped and its participant
id comes from the consent table. -/
theorem report_grouped_sorted_witness :
    ([(⟨"P1", "V1", "2020-02-01", "- / -"⟩ : ReportRow)].map (fun r => r.pid) =
      ((sortedPids ⟨[⟨"P1", some ⟨2020, 2, 1⟩, none, none⟩], false, false⟩).map
        (fun p => List.replicate 1 p)).flatten) ∧
    "P1" ∈ (ConsentsTable.mk [⟨"P1", some ⟨2020, 2, 1⟩, none, none⟩] false false).rows.map
      (fun r => r.mnpaid) := by
  have h := report_grouped_sorted [⟨"V1", some ⟨2020, 1, 1⟩⟩]
    ⟨[⟨"P1", some ⟨2020, 2, 1⟩, none, none⟩], false, false⟩ [] []
    [⟨"P1", "V1", "2020-02-01", "- / -"⟩] (by rfl)
  exact ⟨h.1, h.2.2 "P1" (by decide)⟩

/-- C2 counterexample: two signature dates of one participant resolve to
the same version; the recorded SIGNED date is the ISO rendering of the
later date (2020-03-01), not of the earlier one (2020-02-01) that the
claim demands. -/
theorem signed_keeps_earliest_counterexample :
    participantRows [⟨"V1", some ⟨2020, 1, 1⟩⟩] false false
      [⟨"P1", some ⟨2020, 2, 1⟩, none, none⟩, ⟨"P1", some ⟨2020, 3, 1⟩, none, none⟩]
      none none "yes" "P1" =
      [⟨"P1", "V1", "2020-03-01", "- / -"⟩] ∧
    ("2020-03-01" : String) ≠ "2020-02-01" :=
  ⟨by rfl, by decide⟩

/-- C2 (amended): when the signed map records a date string for a
version, it is the ISO rendering of the latest (maximal) signature date
of the participant that resolves to that version. -/
theorem signed_version_carries_latest_date (icf : List IcfRow)
    (group : List ConsentRow) (v s : String)
    (h : dictFind (buildSigned icf (sortGroup group)) v = some s) :
    ∃ d : Date,
      (∃ r ∈ group, r.icdat = some d ∧ v ∈ find_all_icf_versions icf (some d)) ∧
      s = isoFormat d ∧
      ∀ e : Date,
        (∃ r ∈ group, r.icdat = some e ∧ v ∈ find_all_icf_versions icf (some e)) →
        Date.leB e d = true := by
  rcases dictFind_buildSigned_some (sorted_sortGroup group) h with
    ⟨d, ⟨r, hr, hic, hmem⟩, hs, hmax⟩
  refine ⟨d, ⟨r, mem_sortGroup.mp hr, hic, hmem⟩, hs, ?_⟩
  rintro e ⟨r2, hr2, h2ic, h2mem⟩
  exact hmax e ⟨r2, mem_sortGroup.mpr hr2, h2ic, h2mem⟩

/-- C2 (amended) witness: the recorded date 2020-03-01 is the latest of
the dates resolving to the single catalog version. -/
theorem signed_version_carries_latest_date_witness :
    ∃ d : Date,
      (∃ r ∈ [(⟨"P1", some ⟨2020, 2, 1⟩, none, none⟩ : ConsentRow),
          ⟨"P1", some ⟨2020, 3, 1⟩, none, none⟩],
        r.icdat = some d ∧
          "V1" ∈ find_all_icf_versions [⟨"V1", some ⟨2020, 1, 1⟩⟩] (some d)) ∧
      "2020-03-01" = isoFormat d ∧
      ∀ e : Date,
        (∃ r ∈ [(⟨"P1", some ⟨2020, 2, 1⟩, none, none⟩ : ConsentRow),
            ⟨"P1", some ⟨2020, 3, 1⟩, none, none⟩],
          r.icdat = some e ∧
            "V1" ∈ find_all_icf_versions [⟨"V1", some ⟨2020, 1, 1⟩⟩] (some e)) →
        Date.leB e d = true :=
  signed_version_carries_latest_date [⟨"V1", some ⟨2020, 1, 1⟩⟩]
    [⟨"P1", some ⟨2020, 2, 1⟩, none, none⟩, ⟨"P1", some ⟨2020, 3, 1⟩, none, none⟩]
    "V1" "2020-03-01" (by rfl)

/-- C9 is contradicted by the code: a consent run whose eligibility
table contains a record with an empty eligibility cell aborts the whole
report (modelling the `AttributeError` raised by `.lower()` on the
missing value) instead of defaulting that participant to eligible. -/
theorem empty_eligibility_cell_aborts :
    generate_report [⟨"V1", some ⟨2020, 1, 1⟩⟩]
      ⟨[⟨"P1", some ⟨2020, 2, 1⟩, none, none⟩], false, false⟩
      [] [⟨"P1", none⟩] = Except.error () := by
  rfl

end ICFCheck
